import Mathlib

/-
Verification of the block-oriented streaming hash accumulator of
cpm_encrypt_box (CycloneCRYPTO hardware back ends).

The embedding covers:
  - the buffering loop of md5Update / sha1Update
    (src/hardware/apm32f4xx/apm32f4xx_crypto_hash.c, lines 153-205 and 230-282),
  - the register-level protocol of hashProcessData (same file, lines 71-141),
  - the init routine msp432e4CryptoInit
    (src/hardware/msp432e4/msp432e4_crypto.c, lines 51-81).

Machine integers are modelled as Nat with explicit reduction modulo 2^32
(size_t on the Cortex-M target) and 2^64 (the uint64_t totalSize field)
where the C code can wrap.  The hardware compression step itself is opaque
and enters the model as a function parameter; the algorithm selector and
the digest width (4 words for MD5, 5 for SHA-1) are absorbed into that
parameter and into the length of the state-word list.
-/

set_option maxHeartbeats 1000000

namespace CpmEncryptBox

/-- Modulus of the 32-bit size_t type on the target platform. -/
def W32 : Nat := 4294967296

/-- Modulus of the 64-bit totalSize field of the hash contexts. -/
def W64 : Nat := 18446744073709551616

/-- Wrapping size_t subtraction: the value of the C expression a - b
computed in 32-bit unsigned arithmetic, for a < 2^32. -/
def sub32 (a b : Nat) : Nat := (a + W32 - b % W32) % W32

/-- Hash context as laid out in the C structures Md5Context / Sha1Context:
state words h, the 64-byte block buffer, the number of buffered bytes, and
the running total byte count. -/
structure Md5Context where
  h : List Nat
  buffer : List Nat
  size : Nat
  totalSize : Nat
  deriving DecidableEq

/-- Record of one invocation of the block engine hashProcessData: the state
words handed in and the bytes of the run. -/
structure EngineCall where
  h : List Nat
  data : List Nat
  deriving DecidableEq

/-- Byte-by-byte model of osMemcpy into the context buffer at a given
offset.  Writes past the end of the list are dropped (the C code never
performs one from a well-formed context). -/
def osMemcpy : List Nat → Nat → List Nat → List Nat
  | buf, _, [] => buf
  | buf, off, b :: rest => osMemcpy (buf.set off b) (off + 1) rest

/-- Generic 64-byte block loop (the shape of the while loop of
hashProcessData): as long as at least 64 input bytes remain, consume one
block and combine it into the accumulator.  The fuel argument makes the
recursion structural; one unit of fuel per input byte always suffices. -/
def blockFold {α : Type} (g : α → List Nat → α) : Nat → α → List Nat → α
  | 0, a, _ => a
  | f + 1, a, data =>
    if 64 ≤ data.length then blockFold g f (g a (data.take 64)) (data.drop 64) else a

/-- Net effect of one hashProcessData run on the state words: the engine
consumes the input 64 bytes at a time, applying the opaque hardware
compression step c to each block in order; a trailing fragment shorter
than a block is ignored (the callers only ever pass multiples of 64). -/
def processBlocks (c : List Nat → List Nat → List Nat) (h : List Nat)
    (data : List Nat) : List Nat :=
  blockFold c data.length h data

/-- Result of one iteration of the while loop of md5Update / sha1Update:
the updated context, the block-engine invocations made, and the input
bytes still to process. -/
structure StepOut where
  ctx : Md5Context
  calls : List EngineCall
  rest : List Nat
  deriving DecidableEq

/-- One iteration of the while loop of md5Update / sha1Update (entered with
nonempty remaining input).  Direct branch: size == 0 and length >= 64
forwards the largest 64-multiple prefix straight to the engine.  Otherwise
min(length, 64 - size) bytes are copied into the buffer, which is flushed
through the engine when it reaches exactly 64 bytes. -/
def updateStep (c : List Nat → List Nat → List Nat) (ctx : Md5Context)
    (data : List Nat) : StepOut :=
  if ctx.size = 0 ∧ 64 ≤ data.length then
    let n := data.length - data.length % 64
    { ctx := { h := processBlocks c ctx.h (data.take n), buffer := ctx.buffer,
               size := ctx.size, totalSize := (ctx.totalSize + n) % W64 },
      calls := [{ h := ctx.h, data := data.take n }],
      rest := data.drop n }
  else
    let n := min data.length (sub32 64 ctx.size)
    let buf := osMemcpy ctx.buffer ctx.size (data.take n)
    let sz := (ctx.size + n) % W32
    let ts := (ctx.totalSize + n) % W64
    if sz = 64 then
      { ctx := { h := processBlocks c ctx.h (buf.take 64), buffer := buf,
                 size := 0, totalSize := ts },
        calls := [{ h := ctx.h, data := buf.take 64 }],
        rest := data.drop n }
    else
      { ctx := { h := ctx.h, buffer := buf, size := sz, totalSize := ts },
        calls := [],
        rest := data.drop n }

/-- Fuel-indexed model of the while loop of md5Update / sha1Update.  none
means the loop did not finish within the given number of iterations. -/
def updateFuel (c : List Nat → List Nat → List Nat) :
    Nat → Md5Context → List Nat → Option (Md5Context × List EngineCall)
  | 0, ctx, data => if data.isEmpty then some (ctx, []) else none
  | fuel + 1, ctx, data =>
    if data.isEmpty then some (ctx, [])
    else
      let s := updateStep c ctx data
      match updateFuel c fuel s.ctx s.rest with
      | some (ctxf, calls) => some (ctxf, s.calls ++ calls)
      | none => none

/-- The md5Update entry point: run the loop with one iteration available
per input byte (sufficient whenever size < 64 on entry, since every
iteration then consumes at least one byte). -/
def md5Update (c : List Nat → List Nat → List Nat) (ctx : Md5Context)
    (data : List Nat) : Option (Md5Context × List EngineCall) :=
  updateFuel c data.length ctx data

/-- The sha1Update entry point; the C function is textually identical to
md5Update up to the algorithm selector and digest width, both of which are
absorbed into the compression parameter and the state-word list length. -/
def sha1Update (c : List Nat → List Nat → List Nat) (ctx : Md5Context)
    (data : List Nat) : Option (Md5Context × List EngineCall) :=
  updateFuel c data.length ctx data

/-- Sequence of update calls on one session, discarding the call traces. -/
def multiUpdate (c : List Nat → List Nat → List Nat) :
    Md5Context → List (List Nat) → Option Md5Context
  | ctx, [] => some ctx
  | ctx, d :: ds =>
    match md5Update c ctx d with
    | some (ctx2, _) => multiUpdate c ctx2 ds
    | none => none

/-- Observable abstraction of a context: the state words, the live buffered
bytes (the first size bytes of the buffer), and the total byte count.  The
stale tail of the 64-byte buffer array is not observable through the hash
API. -/
structure AbsState where
  h : List Nat
  live : List Nat
  total : Nat
  deriving DecidableEq

/-- Abstraction function from machine contexts to observable states. -/
def absCtx (ctx : Md5Context) : AbsState :=
  { h := ctx.h, live := ctx.buffer.take ctx.size, total := ctx.totalSize }

/-- One byte of the specification-level accumulator: append the byte to the
live buffer and flush through the compression function when a full block
has been gathered. -/
def feed1 (c : List Nat → List Nat → List Nat) (a : AbsState) (b : Nat) : AbsState :=
  let live := a.live ++ [b]
  if live.length = 64 then
    { h := c a.h live, live := [], total := (a.total + 1) % W64 }
  else
    { h := a.h, live := live, total := (a.total + 1) % W64 }

/-- Specification-level accumulator: feed the bytes one at a time. -/
def feed (c : List Nat → List Nat → List Nat) (a : AbsState) (data : List Nat) : AbsState :=
  data.foldl (feed1 c) a

/-- Error codes of the library that msp432e4CryptoInit can return; NO_ERROR
is the zero code tested by the if(!error) truthiness check. -/
inductive ErrorT where
  | noError
  | outOfResources
  deriving DecidableEq

/-- Actions msp432e4CryptoInit performs, in order: one attempt to create
the exclusive-access mutex, then (only on success) CCM peripheral enable,
reset, and the ready wait. -/
inductive CryptoInitAction where
  | createMutex
  | enablePeriph
  | resetPeriph
  | waitReady
  deriving DecidableEq

/-- Model of msp432e4CryptoInit: the outcome of the single osCreateMutex
attempt is the parameter; the function sets error = ERROR_OUT_OF_RESOURCES
when the attempt fails, performs the peripheral bring-up only when error
is still NO_ERROR, and returns the error code together with the list of
actions taken. -/
def msp432e4CryptoInit (createOk : Bool) : ErrorT × List CryptoInitAction :=
  let error := ErrorT.noError
  let error := if createOk then error else ErrorT.outOfResources
  if error = ErrorT.noError then
    (error, [CryptoInitAction.createMutex, CryptoInitAction.enablePeriph,
             CryptoInitAction.resetPeriph, CryptoInitAction.waitReady])
  else
    (error, [CryptoInitAction.createMutex])

/-- Single register write into the CTSWAP bank of the HASH peripheral,
modelled as a function update on the register index space. -/
def wr (ct : Nat → Nat) (k v : Nat) : Nat → Nat :=
  fun j => if j = k then v else ct j

/-- The state-restore loop of hashProcessData (lines 85-89): for each index
i below hLen, the carried-over word h[i] is written to CTSWAP[6+i] and to
CTSWAP[14+i]. -/
def seedFrom : (Nat → Nat) → Nat → List Nat → (Nat → Nat)
  | ct, _, [] => ct
  | ct, j, v :: rest => seedFrom (wr (wr ct (6 + j) v) (14 + j) v) (j + 1) rest

/-- Little-endian 32-bit word assembled from four bytes, the value of
the __UNALIGNED_UINT32_READ performed on each word of a block. -/
def le32 (b0 b1 b2 b3 : Nat) : Nat :=
  b0 + 256 * b1 + 65536 * b2 + 16777216 * b3

/-- The sixteen 32-bit words of a block, read little-endian 4 bytes at a
time. -/
def bytesToWords : List Nat → List Nat
  | b0 :: b1 :: b2 :: b3 :: rest => le32 b0 b1 b2 b3 :: bytesToWords rest
  | _ => []

/-- The block loop of hashProcessData at the register level: every full
64-byte block is written word by word into INDATA; the opaque hardware
behaviour (digest computation triggered by the first word of the next
block, or by the final zero flush write) advances the CTSWAP bank by the
parameter step per block. -/
def hashBlocksRun (step : (Nat → Nat) → List Nat → (Nat → Nat))
    (ct : Nat → Nat) (data : List Nat) : Nat → Nat :=
  blockFold (fun bank blk => step bank (bytesToWords blk)) data.length ct data

/-- The save loop of hashProcessData (lines 134-137): h[i] is read back
from CTSWAP[14+i] for each i below hLen. -/
def readFrom : (Nat → Nat) → Nat → Nat → List Nat
  | _, _, 0 => []
  | ct, j, k + 1 => ct (14 + j) :: readFrom ct (j + 1) k

/-- Register-level model of hashProcessData: seed both register banks with
the carried-over state words, run the block loop, and read the final state
back from the CTSWAP[14+i] side. -/
def hashProcessData (step : (Nat → Nat) → List Nat → (Nat → Nat))
    (ct0 : Nat → Nat) (h : List Nat) (data : List Nat) : List Nat :=
  readFrom (hashBlocksRun step (seedFrom ct0 0 h) data) 0 h.length

/-- Register and mutex operations performed by hashProcessData, in program
order.  The busy-wait polls of the STS register are each recorded as one
status read (their repetition count is hardware-dependent). -/
inductive HwOp where
  | mutexAcquire
  | mutexRelease
  | ctrlSelect (algo : Nat)
  | ctrlInit
  | ctswapWrite (idx val : Nat)
  | indataWrite (val : Nat)
  | stsRead
  | ctswapRead (idx : Nat)
  deriving DecidableEq

/-- Register writes of the state-restore loop, in order. -/
def seedOps : Nat → List Nat → List HwOp
  | _, [] => []
  | j, v :: rest =>
    HwOp.ctswapWrite (6 + j) v :: HwOp.ctswapWrite (14 + j) v :: seedOps (j + 1) rest

/-- Register operations for one 64-byte block: first INDATA word, the busy
poll, then the fifteen remaining words. -/
def blockOneOps (blk : List Nat) : List HwOp :=
  HwOp.indataWrite ((bytesToWords blk).headD 0) :: HwOp.stsRead ::
    ((bytesToWords blk).tail.map HwOp.indataWrite)

/-- Register operations of the whole block loop. -/
def blockOps (data : List Nat) : List HwOp :=
  blockFold (fun ops blk => ops ++ blockOneOps blk) data.length [] data

/-- Register reads of the save loop, in order. -/
def readOps : Nat → Nat → List HwOp
  | _, 0 => []
  | j, k + 1 => HwOp.ctswapRead (14 + j) :: readOps (j + 1) k

/-- The full operation trace of one hashProcessData invocation: acquire
the crypto mutex, select the algorithm, start a new digest calculation,
seed the state registers, feed the blocks, issue the final zero flush
write and its busy poll, read the state back, release the mutex. -/
def hashOps (algo : Nat) (h data : List Nat) : List HwOp :=
  [HwOp.mutexAcquire, HwOp.ctrlSelect algo, HwOp.ctrlInit] ++ seedOps 0 h ++
    blockOps data ++ [HwOp.indataWrite 0, HwOp.stsRead] ++ readOps 0 h.length ++
    [HwOp.mutexRelease]

/-- Events relevant to the exclusive-access protocol: mutex acquisition,
mutex release, and any access to the shared engine. -/
inductive MEv where
  | acq
  | rel
  | touch
  deriving DecidableEq

/-- Abstraction of a hardware operation to a protocol event: every
register access is an engine touch. -/
def toEv : HwOp → MEv
  | HwOp.mutexAcquire => MEv.acq
  | HwOp.mutexRelease => MEv.rel
  | _ => MEv.touch

/-- Interleavings of the event sequences of two execution contexts; each
merged event is tagged with the context (true = first) it came from. -/
inductive Interleave : List MEv → List MEv → List (Bool × MEv) → Prop where
  | nil : Interleave [] [] []
  | left : ∀ {e xs ys t}, Interleave xs ys t → Interleave (e :: xs) ys ((true, e) :: t)
  | right : ∀ {e xs ys t}, Interleave xs ys t → Interleave xs (e :: ys) ((false, e) :: t)

/-- Semantics of the process-wide mutex over a merged trace: an acquire
succeeds only when no context holds the lock, a release only by the
holder; engine touches are not constrained by the mutex itself.  Returns
true when the whole trace respects the mutex. -/
def mutexSteps : Option Bool → List (Bool × MEv) → Bool
  | _, [] => true
  | holder, (s, MEv.acq) :: rest =>
    match holder with
    | none => mutexSteps (some s) rest
    | some _ => false
  | holder, (s, MEv.rel) :: rest =>
    match holder with
    | some owner => if owner = s then mutexSteps none rest else false
    | none => false
  | holder, (_, MEv.touch) :: rest => mutexSteps holder rest

theorem sub32_of_lt {b : Nat} (hb : b < 64) : sub32 64 b = 64 - b := by
  unfold sub32 W32
  omega

theorem sub32_64_64 : sub32 64 64 = 0 := by
  unfold sub32 W32
  omega

theorem osMemcpy_length (src : List Nat) : ∀ (buf : List Nat) (off : Nat),
    (osMemcpy buf off src).length = buf.length := by
  induction src with
  | nil => intro buf off; rfl
  | cons b rest ih =>
    intro buf off
    rw [osMemcpy, ih]
    exact List.length_set buf off b

theorem osMemcpy_splice (src : List Nat) : ∀ (buf : List Nat) (off : Nat),
    off + src.length ≤ buf.length →
    osMemcpy buf off src = buf.take off ++ src ++ buf.drop (off + src.length) := by
  induction src with
  | nil =>
    intro buf off _
    simp [osMemcpy]
  | cons b rest ih =>
    intro buf off hle
    have hoff : off < buf.length := by simp at hle; omega
    rw [osMemcpy, ih _ _ (by rw [List.length_set]; simp at hle ⊢; omega)]
    have h1 : (buf.set off b).take (off + 1) = buf.take off ++ [b] := by
      rw [List.set_take, List.set_eq_take_cons_drop b (by rw [List.length_take]; omega)]
      rw [List.take_take, List.drop_take]
      simp
    have h2 : (buf.set off b).drop (off + 1 + rest.length) =
        buf.drop (off + (b :: rest).length) := by
      rw [List.drop_set, if_pos (by omega)]
      congr 1
      simp
      omega
    rw [h1, h2]
    simp

theorem blockFold_congr {α : Type} (g : α → List Nat → α) :
    ∀ (f1 f2 : Nat) (a : α) (data : List Nat), data.length ≤ f1 → data.length ≤ f2 →
    blockFold g f1 a data = blockFold g f2 a data := by
  intro f1
  induction f1 with
  | zero =>
    intro f2 a data h1 _
    have hnil : data = [] := List.eq_nil_of_length_eq_zero (by omega)
    subst hnil
    cases f2 with
    | zero => rfl
    | succ f2 => simp [blockFold]
  | succ f1 ih =>
    intro f2 a data h1 h2
    cases f2 with
    | zero =>
      have hnil : data = [] := List.eq_nil_of_length_eq_zero (by omega)
      subst hnil
      simp [blockFold]
    | succ f2 =>
      simp only [blockFold]
      by_cases h : 64 ≤ data.length
      · rw [if_pos h, if_pos h]
        exact ih f2 _ _ (by rw [List.length_drop]; omega) (by rw [List.length_drop]; omega)
      · rw [if_neg h, if_neg h]

theorem processBlocks_unfold (c : List Nat → List Nat → List Nat) (h data) :
    processBlocks c h data =
      if 64 ≤ data.length then
        processBlocks c (c h (data.take 64)) (data.drop 64)
      else h := by
  unfold processBlocks
  rw [blockFold_congr c data.length (data.length + 1) h data (le_refl _) (by omega)]
  simp only [blockFold]
  by_cases h64 : 64 ≤ data.length
  · rw [if_pos h64, if_pos h64]
    exact blockFold_congr c data.length _ _ _ (by rw [List.length_drop]; omega) (le_refl _)
  · rw [if_neg h64, if_neg h64]

theorem processBlocks_short (c : List Nat → List Nat → List Nat) (h : List Nat)
    {data : List Nat} (hd : data.length < 64) : processBlocks c h data = h := by
  rw [processBlocks_unfold, if_neg (by omega)]

theorem processBlocks_block (c : List Nat → List Nat → List Nat) (h : List Nat)
    {data : List Nat} (hd : data.length = 64) : processBlocks c h data = c h data := by
  rw [processBlocks_unfold, if_pos (by omega)]
  rw [List.take_of_length_le (by omega), List.drop_eq_nil_of_le (by omega)]
  rw [processBlocks_short c _ (by simp)]

theorem feed_nil (c : List Nat → List Nat → List Nat) (a : AbsState) : feed c a [] = a := rfl

theorem feed_append (c : List Nat → List Nat → List Nat) (a : AbsState) (x y : List Nat) :
    feed c a (x ++ y) = feed c (feed c a x) y :=
  List.foldl_append _ _ _ _

/-- Filling the live buffer without an intermediate flush: feeding at most
the bytes missing to complete a block appends them to the live buffer,
flushing through the compression function exactly when the block becomes
complete. -/
theorem feed_fill (c : List Nat → List Nat → List Nat) (x : List Nat) :
    ∀ (a : AbsState), a.live.length < 64 → a.live.length + x.length ≤ 64 →
    a.total < W64 →
    feed c a x =
      if a.live.length + x.length = 64 then
        { h := c a.h (a.live ++ x), live := [], total := (a.total + x.length) % W64 }
      else
        { h := a.h, live := a.live ++ x, total := (a.total + x.length) % W64 } := by
  induction x with
  | nil =>
    intro a hlt _ htot
    rw [if_neg (by simp only [List.length_nil]; omega), feed_nil]
    simp [Nat.mod_eq_of_lt htot]
  | cons b rest ih =>
    intro a hlt hle htot
    have hstep : feed c a (b :: rest) = feed c (feed1 c a b) rest := by
      simp [feed]
    rw [hstep]
    simp only [List.length_cons] at hle
    by_cases hfull : a.live.length + 1 = 64
    · have hrest : rest = [] := by
        cases rest with
        | nil => rfl
        | cons r rs => simp at hle; omega
      subst hrest
      rw [feed_nil]
      rw [if_pos (by simp only [List.length_cons, List.length_nil]; omega)]
      simp [feed1, hfull]
    · have h1 : feed1 c a b = ⟨a.h, a.live ++ [b], (a.total + 1) % W64⟩ := by
        simp only [feed1]
        rw [if_neg (by simp only [List.length_append, List.length_singleton]; omega)]
      rw [h1, ih _ (by simp only [List.length_append, List.length_singleton]; omega)
        (by simp only [List.length_append, List.length_singleton]; omega)
        (Nat.mod_lt _ (by unfold W64; omega))]
      dsimp only
      simp only [List.length_append, List.length_singleton, List.length_cons,
        List.length_nil, Nat.zero_add]
      have harg : (a.live ++ [b]) ++ rest = a.live ++ b :: rest := by simp
      have htot2 : ((a.total + 1) % W64 + rest.length) % W64 =
          (a.total + (rest.length + 1)) % W64 := by
        rw [Nat.mod_add_mod]
        congr 1
        omega
      have e1 : a.live.length + 1 + rest.length = a.live.length + (rest.length + 1) := by
        omega
      rw [e1, harg, htot2]

/-- Total byte count of the specification accumulator. -/
theorem feed_total (c : List Nat → List Nat → List Nat) (x : List Nat) :
    ∀ (a : AbsState), a.total < W64 →
    (feed c a x).total = (a.total + x.length) % W64 := by
  induction x with
  | nil =>
    intro a htot
    rw [feed_nil]
    simp [Nat.mod_eq_of_lt htot]
  | cons b rest ih =>
    intro a htot
    have hstep : feed c a (b :: rest) = feed c (feed1 c a b) rest := by
      simp [feed]
    have h1 : (feed1 c a b).total = (a.total + 1) % W64 := by
      simp only [feed1]
      split <;> rfl
    rw [hstep, ih _ (by rw [h1]; exact Nat.mod_lt _ (by unfold W64; omega)), h1]
    rw [Nat.mod_add_mod]
    simp only [List.length_cons]
    congr 1
    omega

/-- The specification accumulator keeps its live buffer short. -/
theorem feed_live_lt (c : List Nat → List Nat → List Nat) (x : List Nat) :
    ∀ (a : AbsState), a.live.length < 64 → (feed c a x).live.length < 64 := by
  induction x with
  | nil => intro a hlt; rw [feed_nil]; exact hlt
  | cons b rest ih =>
    intro a hlt
    have hstep : feed c a (b :: rest) = feed c (feed1 c a b) rest := by
      simp [feed]
    rw [hstep]
    apply ih
    simp only [feed1]
    split
    · simp
    · rename_i hne
      simp at hne ⊢
      omega

/-- Feeding a whole-block run into an empty live buffer is exactly the
block-by-block engine run. -/
theorem feed_blocks (c : List Nat → List Nat → List Nat) :
    ∀ (k : Nat) (x : List Nat) (a : AbsState), a.live = [] → a.total < W64 →
    x.length = 64 * k →
    feed c a x =
      { h := processBlocks c a.h x, live := [], total := (a.total + x.length) % W64 } := by
  intro k
  induction k with
  | zero =>
    intro x a hlive htot hx
    have hnil : x = [] := List.eq_nil_of_length_eq_zero (by omega)
    subst hnil
    rw [feed_nil, processBlocks_short c _ (by simp)]
    cases a with
    | mk h live total =>
      simp at hlive
      simp [hlive, Nat.mod_eq_of_lt htot]
  | succ k ih =>
    intro x a hlive htot hx
    have hx64 : 64 ≤ x.length := by omega
    have hsplit : x = x.take 64 ++ x.drop 64 := (List.take_append_drop 64 x).symm
    rw [hsplit, feed_append]
    have htake : (x.take 64).length = 64 := by
      rw [List.length_take]
      omega
    have h1 : feed c a (x.take 64) =
        { h := c a.h (x.take 64), live := [], total := (a.total + 64) % W64 } := by
      rw [feed_fill c _ _ (by rw [hlive]; simp) (by rw [hlive, htake]; simp) htot]
      rw [if_pos (by rw [hlive, htake]; simp)]
      rw [hlive, htake]
      simp
    rw [h1, ih (x.drop 64) _ rfl (Nat.mod_lt _ (by unfold W64; omega))
      (by rw [List.length_drop]; omega)]
    dsimp only
    have hR : processBlocks c a.h (x.take 64 ++ x.drop 64) =
        processBlocks c (c a.h (x.take 64)) (x.drop 64) := by
      rw [processBlocks_unfold c a.h (x.take 64 ++ x.drop 64),
        if_pos (by simp only [List.length_append, htake]; omega)]
      rw [List.take_left' htake, List.drop_left' htake]
    rw [hR, Nat.mod_add_mod]
    have htot2 : a.total + 64 + (x.drop 64).length =
        a.total + (x.take 64 ++ x.drop 64).length := by
      simp only [List.length_append, htake]
      omega
    rw [htot2]

/-- Characterization of the direct-processing branch of the loop body. -/
theorem updateStep_direct (c : List Nat → List Nat → List Nat) (ctx : Md5Context)
    (data : List Nat) (h0 : ctx.size = 0) (h64 : 64 ≤ data.length) :
    updateStep c ctx data =
      { ctx := { h := processBlocks c ctx.h (data.take (data.length - data.length % 64)),
                 buffer := ctx.buffer, size := ctx.size,
                 totalSize := (ctx.totalSize + (data.length - data.length % 64)) % W64 },
        calls := [{ h := ctx.h, data := data.take (data.length - data.length % 64) }],
        rest := data.drop (data.length - data.length % 64) } := by
  simp only [updateStep, if_pos (And.intro h0 h64)]

/-- Characterization of the buffering branch of the loop body, for a
well-formed context (size < 64): the size_t subtraction does not wrap and
the new size does not overflow. -/
theorem updateStep_buffering (c : List Nat → List Nat → List Nat) (ctx : Md5Context)
    (data : List Nat) (hnot : ¬(ctx.size = 0 ∧ 64 ≤ data.length)) (hs : ctx.size < 64) :
    updateStep c ctx data =
      if ctx.size + min data.length (64 - ctx.size) = 64 then
        { ctx := { h := processBlocks c ctx.h
                     ((osMemcpy ctx.buffer ctx.size
                       (data.take (min data.length (64 - ctx.size)))).take 64),
                   buffer := osMemcpy ctx.buffer ctx.size
                     (data.take (min data.length (64 - ctx.size))),
                   size := 0,
                   totalSize := (ctx.totalSize + min data.length (64 - ctx.size)) % W64 },
          calls := [{ h := ctx.h,
                      data := (osMemcpy ctx.buffer ctx.size
                        (data.take (min data.length (64 - ctx.size)))).take 64 }],
          rest := data.drop (min data.length (64 - ctx.size)) }
      else
        { ctx := { h := ctx.h,
                   buffer := osMemcpy ctx.buffer ctx.size
                     (data.take (min data.length (64 - ctx.size))),
                   size := ctx.size + min data.length (64 - ctx.size),
                   totalSize := (ctx.totalSize + min data.length (64 - ctx.size)) % W64 },
          calls := [],
          rest := data.drop (min data.length (64 - ctx.size)) } := by
  have hsub : sub32 64 ctx.size = 64 - ctx.size := sub32_of_lt hs
  have hmod : (ctx.size + min data.length (64 - ctx.size)) % W32 =
      ctx.size + min data.length (64 - ctx.size) := by
    have : min data.length (64 - ctx.size) ≤ 64 - ctx.size := Nat.min_le_right _ _
    exact Nat.mod_eq_of_lt (by unfold W32; omega)
  simp only [updateStep, if_neg hnot, hsub, hmod]

/-- Totality and buffer invariant of the loop: from a well-formed context
(size < 64) the loop finishes within one iteration per input byte --- every
iteration consumes at least one byte --- and re-establishes size < 64. -/
theorem updateFuel_some (c : List Nat → List Nat → List Nat) :
    ∀ (fuel : Nat) (ctx : Md5Context) (data : List Nat),
    ctx.size < 64 → data.length ≤ fuel →
    ∃ ctx2 calls, updateFuel c fuel ctx data = some (ctx2, calls) ∧ ctx2.size < 64 := by
  intro fuel
  induction fuel with
  | zero =>
    intro ctx data hs hf
    have hnil : data = [] := List.eq_nil_of_length_eq_zero (by omega)
    subst hnil
    exact ⟨ctx, [], rfl, hs⟩
  | succ fuel ih =>
    intro ctx data hs hf
    cases data with
    | nil => exact ⟨ctx, [], rfl, hs⟩
    | cons d ds =>
      have hstep : (updateStep c ctx (d :: ds)).ctx.size < 64 ∧
          (updateStep c ctx (d :: ds)).rest.length ≤ fuel := by
        by_cases hdir : ctx.size = 0 ∧ 64 ≤ (d :: ds).length
        · rw [updateStep_direct c ctx (d :: ds) hdir.1 hdir.2]
          have h64 := hdir.2
          simp only [List.length_cons] at h64 hf
          constructor
          · simpa using hs
          · simp only [List.length_drop, List.length_cons]
            omega
        · rw [updateStep_buffering c ctx (d :: ds) hdir hs]
          simp only [List.length_cons] at hf ⊢
          have hmin : min (ds.length + 1) (64 - ctx.size) ≤ 64 - ctx.size :=
            Nat.min_le_right _ _
          by_cases hfl : ctx.size + min (ds.length + 1) (64 - ctx.size) = 64
          · rw [if_pos hfl]
            constructor
            · simp
            · dsimp only
              simp only [List.length_drop, List.length_cons]
              omega
          · rw [if_neg hfl]
            constructor
            · dsimp only
              omega
            · dsimp only
              simp only [List.length_drop, List.length_cons]
              omega
      obtain ⟨ctx2, calls2, heq, hs2⟩ := ih _ _ hstep.1 hstep.2
      refine ⟨ctx2, (updateStep c ctx (d :: ds)).calls ++ calls2, ?_, hs2⟩
      simp only [updateFuel, List.isEmpty_cons, Bool.false_eq_true, if_false]
      rw [heq]

/-- Observable effect of the direct-processing branch: it is the
specification fold over the forwarded prefix. -/
theorem updateStep_direct_abs (c : List Nat → List Nat → List Nat) (ctx : Md5Context)
    (data : List Nat) (h0 : ctx.size = 0) (h64 : 64 ≤ data.length)
    (ht : ctx.totalSize < W64) :
    absCtx (updateStep c ctx data).ctx =
      feed c (absCtx ctx) (data.take (data.length - data.length % 64)) := by
  have hn : (data.take (data.length - data.length % 64)).length =
      data.length - data.length % 64 := by
    rw [List.length_take]
    omega
  have hblocks : (data.take (data.length - data.length % 64)).length =
      64 * (data.length / 64) := by
    rw [hn]
    omega
  rw [updateStep_direct c ctx data h0 h64]
  rw [feed_blocks c (data.length / 64) _ _ (by simp [absCtx, h0]) ht hblocks]
  simp only [absCtx, h0, List.take_zero, hn]

/-- Observable effect of one buffering iteration: it is the specification
fold over the consumed bytes, both when the buffer fills exactly (flush)
and when it does not. -/
theorem updateStep_buffer_abs (c : List Nat → List Nat → List Nat) (ctx : Md5Context)
    (data : List Nat) (hnot : ¬(ctx.size = 0 ∧ 64 ≤ data.length)) (hs : ctx.size < 64)
    (hb : ctx.buffer.length = 64) (ht : ctx.totalSize < W64) :
    absCtx (updateStep c ctx data).ctx =
      feed c (absCtx ctx) (data.take (min data.length (64 - ctx.size))) := by
  have hnlen : (data.take (min data.length (64 - ctx.size))).length =
      min data.length (64 - ctx.size) := by
    rw [List.length_take]
    have := Nat.min_le_left data.length (64 - ctx.size)
    omega
  have hminr : min data.length (64 - ctx.size) ≤ 64 - ctx.size := Nat.min_le_right _ _
  have hlive : (absCtx ctx).live = ctx.buffer.take ctx.size := rfl
  have hlivelen : (absCtx ctx).live.length = ctx.size := by
    rw [hlive, List.length_take]
    omega
  have hsplice : osMemcpy ctx.buffer ctx.size (data.take (min data.length (64 - ctx.size))) =
      (ctx.buffer.take ctx.size ++ data.take (min data.length (64 - ctx.size))) ++
        ctx.buffer.drop (ctx.size + min data.length (64 - ctx.size)) := by
    rw [osMemcpy_splice _ _ _ (by rw [hnlen, hb]; omega), hnlen]
  have hablen : (ctx.buffer.take ctx.size ++
      data.take (min data.length (64 - ctx.size))).length =
      ctx.size + min data.length (64 - ctx.size) := by
    rw [List.length_append, hnlen, List.length_take]
    omega
  have hfill := feed_fill c (data.take (min data.length (64 - ctx.size))) (absCtx ctx)
    (by rw [hlivelen]; exact hs) (by rw [hlivelen, hnlen]; omega) ht
  rw [updateStep_buffering c ctx data hnot hs]
  by_cases hfl : ctx.size + min data.length (64 - ctx.size) = 64
  · rw [if_pos hfl]
    have hdropnil : ctx.buffer.drop (ctx.size + min data.length (64 - ctx.size)) = [] :=
      List.drop_eq_nil_of_le (by omega)
    have hbuf : osMemcpy ctx.buffer ctx.size
        (data.take (min data.length (64 - ctx.size))) =
        ctx.buffer.take ctx.size ++ data.take (min data.length (64 - ctx.size)) := by
      rw [hsplice, hdropnil, List.append_nil]
    have hbuflen : (osMemcpy ctx.buffer ctx.size
        (data.take (min data.length (64 - ctx.size)))).length = 64 := by
      rw [osMemcpy_length, hb]
    have htk : (osMemcpy ctx.buffer ctx.size
        (data.take (min data.length (64 - ctx.size)))).take 64 =
        osMemcpy ctx.buffer ctx.size (data.take (min data.length (64 - ctx.size))) :=
      List.take_of_length_le (by rw [hbuflen])
    rw [hfill, if_pos (by rw [hlivelen, hnlen]; exact hfl)]
    simp only [absCtx, List.take_zero]
    rw [htk, processBlocks_block c _ (by rw [hbuflen]), hbuf, hnlen]
  · rw [if_neg hfl]
    have htk2 : (osMemcpy ctx.buffer ctx.size
        (data.take (min data.length (64 - ctx.size)))).take
          (ctx.size + min data.length (64 - ctx.size)) =
        ctx.buffer.take ctx.size ++ data.take (min data.length (64 - ctx.size)) := by
      rw [hsplice]
      exact List.take_left' hablen
    rw [hfill, if_neg (by rw [hlivelen, hnlen]; exact hfl)]
    simp only [absCtx]
    rw [htk2, hnlen]

/-- Simulation of the machine loop by the byte-at-a-time specification
accumulator: from a well-formed context the loop succeeds and its
observable state (state words, live buffer prefix, total count) is exactly
the specification fold over the input bytes. -/
theorem updateFuel_refines (c : List Nat → List Nat → List Nat) :
    ∀ (fuel : Nat) (ctx : Md5Context) (data : List Nat),
    ctx.size < 64 → ctx.buffer.length = 64 → ctx.totalSize < W64 → data.length ≤ fuel →
    ∃ ctx2 calls, updateFuel c fuel ctx data = some (ctx2, calls) ∧
      ctx2.size < 64 ∧ ctx2.buffer.length = 64 ∧ ctx2.totalSize < W64 ∧
      absCtx ctx2 = feed c (absCtx ctx) data := by
  intro fuel
  induction fuel with
  | zero =>
    intro ctx data hs hb ht hf
    have hnil : data = [] := List.eq_nil_of_length_eq_zero (by omega)
    subst hnil
    exact ⟨ctx, [], rfl, hs, hb, ht, by rw [feed_nil]⟩
  | succ fuel ih =>
    intro ctx data hs hb ht hf
    cases data with
    | nil => exact ⟨ctx, [], rfl, hs, hb, ht, by rw [feed_nil]⟩
    | cons d ds =>
      have hw64 : 0 < W64 := by unfold W64; omega
      have hstep : (updateStep c ctx (d :: ds)).ctx.size < 64 ∧
          (updateStep c ctx (d :: ds)).ctx.buffer.length = 64 ∧
          (updateStep c ctx (d :: ds)).ctx.totalSize < W64 ∧
          (updateStep c ctx (d :: ds)).rest.length ≤ fuel ∧
          feed c (absCtx ctx) (d :: ds) =
            feed c (absCtx (updateStep c ctx (d :: ds)).ctx)
              (updateStep c ctx (d :: ds)).rest := by
        by_cases hdir : ctx.size = 0 ∧ 64 ≤ (d :: ds).length
        · have habs := updateStep_direct_abs c ctx (d :: ds) hdir.1 hdir.2 ht
          have h64 := hdir.2
          have hrest : (updateStep c ctx (d :: ds)).rest =
              (d :: ds).drop ((d :: ds).length - (d :: ds).length % 64) := by
            rw [updateStep_direct c ctx (d :: ds) hdir.1 hdir.2]
          refine ⟨?_, ?_, ?_, ?_, ?_⟩
          · rw [updateStep_direct c ctx (d :: ds) hdir.1 hdir.2]
            simpa using hs
          · rw [updateStep_direct c ctx (d :: ds) hdir.1 hdir.2]
            simpa using hb
          · rw [updateStep_direct c ctx (d :: ds) hdir.1 hdir.2]
            exact Nat.mod_lt _ hw64
          · rw [hrest]
            simp only [List.length_drop, List.length_cons] at hf ⊢
            simp only [List.length_cons] at h64
            omega
          · rw [habs, hrest]
            rw [← feed_append]
            rw [List.take_append_drop]
        · have habs := updateStep_buffer_abs c ctx (d :: ds) hdir hs hb ht
          have hrest : (updateStep c ctx (d :: ds)).rest =
              (d :: ds).drop (min (d :: ds).length (64 - ctx.size)) := by
            rw [updateStep_buffering c ctx (d :: ds) hdir hs]
            by_cases hfl : ctx.size + min (d :: ds).length (64 - ctx.size) = 64
            · rw [if_pos hfl]
            · rw [if_neg hfl]
          have hminr : min (d :: ds).length (64 - ctx.size) ≤ 64 - ctx.size :=
            Nat.min_le_right _ _
          refine ⟨?_, ?_, ?_, ?_, ?_⟩
          · rw [updateStep_buffering c ctx (d :: ds) hdir hs]
            by_cases hfl : ctx.size + min (d :: ds).length (64 - ctx.size) = 64
            · rw [if_pos hfl]
              simp
            · rw [if_neg hfl]
              dsimp only
              omega
          · rw [updateStep_buffering c ctx (d :: ds) hdir hs]
            by_cases hfl : ctx.size + min (d :: ds).length (64 - ctx.size) = 64
            · rw [if_pos hfl]
              dsimp only
              rw [osMemcpy_length, hb]
            · rw [if_neg hfl]
              dsimp only
              rw [osMemcpy_length, hb]
          · rw [updateStep_buffering c ctx (d :: ds) hdir hs]
            by_cases hfl : ctx.size + min (d :: ds).length (64 - ctx.size) = 64
            · rw [if_pos hfl]
              exact Nat.mod_lt _ hw64
            · rw [if_neg hfl]
              exact Nat.mod_lt _ hw64
          · rw [hrest]
            simp only [List.length_drop, List.length_cons] at hf ⊢
            omega
          · rw [habs, hrest]
            rw [← feed_append]
            rw [List.take_append_drop]
      obtain ⟨ctx2, calls2, heq, h1, h2, h3, h4⟩ :=
        ih _ _ hstep.1 hstep.2.1 hstep.2.2.1 hstep.2.2.2.1
      refine ⟨ctx2, (updateStep c ctx (d :: ds)).calls ++ calls2, ?_, h1, h2, h3, ?_⟩
      · simp only [updateFuel, List.isEmpty_cons, Bool.false_eq_true, if_false]
        rw [heq]
      · rw [h4, ← hstep.2.2.2.2]

/-- The loop returns immediately on empty input, at any fuel. -/
theorem updateFuel_nil (c : List Nat → List Nat → List Nat) (fuel : Nat)
    (ctx : Md5Context) : updateFuel c fuel ctx [] = some (ctx, []) := by
  cases fuel <;> rfl

/-- Unfolding of one loop iteration on nonempty input. -/
theorem updateFuel_cons (c : List Nat → List Nat → List Nat) (fuel : Nat)
    (ctx : Md5Context) (d : Nat) (ds : List Nat) :
    updateFuel c (fuel + 1) ctx (d :: ds) =
      match updateFuel c fuel (updateStep c ctx (d :: ds)).ctx
          (updateStep c ctx (d :: ds)).rest with
      | some (ctxf, calls) => some (ctxf, (updateStep c ctx (d :: ds)).calls ++ calls)
      | none => none := rfl

/-- Sequencing several update calls on a well-formed context succeeds,
preserves well-formedness, and observably equals feeding the concatenation
of all the chunks. -/
theorem multiUpdate_refines (c : List Nat → List Nat → List Nat) :
    ∀ (chunks : List (List Nat)) (ctx : Md5Context),
    ctx.size < 64 → ctx.buffer.length = 64 → ctx.totalSize < W64 →
    ∃ ctx2, multiUpdate c ctx chunks = some ctx2 ∧
      ctx2.size < 64 ∧ ctx2.buffer.length = 64 ∧ ctx2.totalSize < W64 ∧
      absCtx ctx2 = feed c (absCtx ctx) chunks.flatten := by
  intro chunks
  induction chunks with
  | nil =>
    intro ctx hs hb ht
    exact ⟨ctx, rfl, hs, hb, ht, by rw [List.flatten_nil, feed_nil]⟩
  | cons d ds ih =>
    intro ctx hs hb ht
    obtain ⟨ctx1, calls1, heq1, h1, h2, h3, h4⟩ :=
      updateFuel_refines c d.length ctx d hs hb ht (le_refl _)
    obtain ⟨ctx2, heq2, g1, g2, g3, g4⟩ := ih ctx1 h1 h2 h3
    refine ⟨ctx2, ?_, g1, g2, g3, ?_⟩
    · simp only [multiUpdate, md5Update]
      rw [heq1]
      exact heq2
    · rw [g4, h4, ← feed_append, List.flatten_cons]

/-- Behaviour of the loop body on a context whose size field is exactly
64: the size_t expression 64 - size is 0, so no input byte is consumed,
but the full-buffer check fires, the stale buffer is flushed through the
engine and size is reset to 0. -/
theorem updateStep_size64 (c : List Nat → List Nat → List Nat) (ctx : Md5Context)
    (data : List Nat) (h64 : ctx.size = 64) :
    updateStep c ctx data =
      { ctx := { h := processBlocks c ctx.h (ctx.buffer.take 64), buffer := ctx.buffer,
                 size := 0, totalSize := ctx.totalSize % W64 },
        calls := [{ h := ctx.h, data := ctx.buffer.take 64 }],
        rest := data } := by
  have hnot : ¬(ctx.size = 0 ∧ 64 ≤ data.length) := by
    intro hc
    omega
  have hm : (ctx.size + min data.length (sub32 64 ctx.size)) % W32 = 64 := by
    rw [h64, sub32_64_64, Nat.min_zero, Nat.add_zero]
    exact Nat.mod_eq_of_lt (by unfold W32; omega)
  simp only [updateStep, if_neg hnot]
  rw [if_pos hm]
  simp only [h64, sub32_64_64, Nat.min_zero, List.take_zero, osMemcpy, Nat.add_zero,
    List.drop_zero]

/-- Behaviour of the loop body on a context whose size field exceeds 64
(still a representable size_t value): the size_t subtraction 64 - size
wraps around, so the iteration either flushes (size reset to 0) or
consumes all the remaining input. -/
theorem updateStep_gt64 (c : List Nat → List Nat → List Nat) (ctx : Md5Context)
    (data : List Nat) (hgt : 64 < ctx.size) (hlt : ctx.size < W32) :
    ((updateStep c ctx data).ctx.size = 0 ∨ (updateStep c ctx data).rest = []) ∧
    (updateStep c ctx data).rest.length ≤ data.length := by
  have hnot : ¬(ctx.size = 0 ∧ 64 ≤ data.length) := by
    intro hc
    omega
  have hsub : sub32 64 ctx.size = 64 + W32 - ctx.size := by
    unfold sub32
    rw [Nat.mod_eq_of_lt hlt]
    exact Nat.mod_eq_of_lt (by omega)
  simp only [updateStep, if_neg hnot, hsub]
  by_cases hfl : (ctx.size + min data.length (64 + W32 - ctx.size)) % W32 = 64
  · rw [if_pos hfl]
    refine ⟨Or.inl rfl, ?_⟩
    dsimp only
    rw [List.length_drop]
    omega
  · rw [if_neg hfl]
    constructor
    · right
      have hmin : min data.length (64 + W32 - ctx.size) = data.length := by
        rcases Nat.le_total data.length (64 + W32 - ctx.size) with hle | hge
        · exact Nat.min_eq_left hle
        · exfalso
          apply hfl
          rw [Nat.min_eq_right hge]
          have hW : ctx.size + (64 + W32 - ctx.size) = 64 + W32 := by omega
          rw [hW, Nat.add_mod_right]
          exact Nat.mod_eq_of_lt (by unfold W32; omega)
      dsimp only
      rw [hmin, List.drop_length]
    · dsimp only
      rw [List.length_drop]
      omega

/-- Termination of the loop for every representable size_t value of the
size field, with one unit of fuel per input byte plus one extra iteration:
when size = 64 the first iteration consumes nothing but flushes and resets
size to 0, and when size > 64 the wrapped subtraction consumes everything
or flushes; afterwards every iteration consumes at least one byte. -/
theorem updateFuel_terminates_any (c : List Nat → List Nat → List Nat)
    (ctx : Md5Context) (data : List Nat) (hs : ctx.size < W32) :
    ∃ r, updateFuel c (data.length + 1) ctx data = some r := by
  rcases Nat.lt_or_ge ctx.size 64 with h | h
  · obtain ⟨ctx2, calls, heq, _⟩ := updateFuel_some c (data.length + 1) ctx data h (by omega)
    exact ⟨(ctx2, calls), heq⟩
  · cases data with
    | nil => exact ⟨(ctx, []), rfl⟩
    | cons d ds =>
      rcases Nat.eq_or_lt_of_le h with h64 | hgt
      · have hstep := updateStep_size64 c ctx (d :: ds) h64.symm
        obtain ⟨ctx2, calls2, heq, _⟩ := updateFuel_some c (d :: ds).length
          (updateStep c ctx (d :: ds)).ctx (updateStep c ctx (d :: ds)).rest
          (by rw [hstep]; simp) (by rw [hstep])
        refine ⟨(ctx2, (updateStep c ctx (d :: ds)).calls ++ calls2), ?_⟩
        rw [updateFuel_cons, heq]
      · obtain ⟨hor, hle⟩ := updateStep_gt64 c ctx (d :: ds) hgt hs
        rcases hor with h0 | hnil
        · obtain ⟨ctx2, calls2, heq, _⟩ := updateFuel_some c (d :: ds).length
            (updateStep c ctx (d :: ds)).ctx (updateStep c ctx (d :: ds)).rest
            (by rw [h0]; omega) hle
          refine ⟨(ctx2, (updateStep c ctx (d :: ds)).calls ++ calls2), ?_⟩
          rw [updateFuel_cons, heq]
        · refine ⟨((updateStep c ctx (d :: ds)).ctx, (updateStep c ctx (d :: ds)).calls ++ []), ?_⟩
          rw [updateFuel_cons, hnil, updateFuel_nil]

/-- C9: for every session and every block engine, calling update
(md5Update / sha1Update) with length 0 changes none of the session fields
--- the result is exactly the input context --- and performs no block-engine
invocation (the call trace is empty). -/
theorem update_empty_noop :
    (∀ (c : List Nat → List Nat → List Nat) (ctx : Md5Context),
      md5Update c ctx [] = some (ctx, [])) ∧
    (∀ (c : List Nat → List Nat → List Nat) (ctx : Md5Context),
      sha1Update c ctx [] = some (ctx, [])) :=
  ⟨fun _ _ => rfl, fun _ _ => rfl⟩

/-- C2: buffer invariant.  First two conjuncts: from any session with
size < 64, an md5Update / sha1Update call completes and leaves size < 64.
Third conjunct: whenever the buffering branch makes the buffer reach
exactly 64 bytes, it is flushed through the block engine (a call is
recorded) and size is reset to 0 before the iteration ends. -/
theorem update_buffer_invariant :
    (∀ (c : List Nat → List Nat → List Nat) (ctx : Md5Context) (data : List Nat),
      ctx.size < 64 → ∃ r, md5Update c ctx data = some r ∧ r.1.size < 64) ∧
    (∀ (c : List Nat → List Nat → List Nat) (ctx : Md5Context) (data : List Nat),
      ctx.size < 64 → ∃ r, sha1Update c ctx data = some r ∧ r.1.size < 64) ∧
    (∀ (c : List Nat → List Nat → List Nat) (ctx : Md5Context) (data : List Nat),
      ¬(ctx.size = 0 ∧ 64 ≤ data.length) → ctx.size < 64 →
      ctx.size + min data.length (64 - ctx.size) = 64 →
      (updateStep c ctx data).ctx.size = 0 ∧ (updateStep c ctx data).calls ≠ []) := by
  refine ⟨?_, ?_, ?_⟩
  · intro c ctx data hs
    obtain ⟨ctx2, calls, heq, hlt⟩ := updateFuel_some c data.length ctx data hs (le_refl _)
    exact ⟨(ctx2, calls), heq, hlt⟩
  · intro c ctx data hs
    obtain ⟨ctx2, calls, heq, hlt⟩ := updateFuel_some c data.length ctx data hs (le_refl _)
    exact ⟨(ctx2, calls), heq, hlt⟩
  · intro c ctx data hnot hs hfl
    rw [updateStep_buffering c ctx data hnot hs, if_pos hfl]
    exact ⟨rfl, by simp⟩

/-- Witness for C2 at a concrete session with three buffered bytes. -/
theorem update_buffer_invariant_witness :
    (3 : Nat) < 64 ∧
    (∃ r, md5Update (fun h _ => h) ⟨[0], List.replicate 64 0, 3, 3⟩ [1, 2] = some r ∧
      r.1.size < 64) :=
  ⟨by decide,
    update_buffer_invariant.1 (fun h _ => h) ⟨[0], List.replicate 64 0, 3, 3⟩ [1, 2]
      (by decide)⟩

/-- C3: total-length accounting.  On a fresh session (size = 0,
totalSize = 0, 64-byte buffer), after any sequence of update calls the
totalSize field equals the sum of the lengths of all the data passed,
provided that sum is representable in the 64-bit counter. -/
theorem md5Update_totalSize_sum (c : List Nat → List Nat → List Nat)
    (ctx : Md5Context) (chunks : List (List Nat))
    (hsz : ctx.size = 0) (hb : ctx.buffer.length = 64) (ht : ctx.totalSize = 0)
    (hsum : (chunks.map List.length).sum < W64) :
    ∃ ctx2, multiUpdate c ctx chunks = some ctx2 ∧
      ctx2.totalSize = (chunks.map List.length).sum := by
  obtain ⟨ctx2, heq, _, _, _, habs⟩ := multiUpdate_refines c chunks ctx (by omega) hb
    (by rw [ht]; unfold W64; omega)
  refine ⟨ctx2, heq, ?_⟩
  have h1 : ctx2.totalSize = (absCtx ctx2).total := rfl
  have h2 : (absCtx ctx).total = 0 := ht
  rw [h1, habs, feed_total c _ _ (by rw [h2]; unfold W64; omega), h2, Nat.zero_add,
    List.length_flatten]
  exact Nat.mod_eq_of_lt hsum

/-- Witness for C3 with two update calls of lengths 2 and 1. -/
theorem md5Update_totalSize_sum_witness :
    ((([[1, 2], [3]] : List (List Nat)).map List.length).sum < W64) ∧
    (∃ ctx2, multiUpdate (fun h _ => h) ⟨[0], List.replicate 64 0, 0, 0⟩ [[1, 2], [3]] =
        some ctx2 ∧
      ctx2.totalSize = (([[1, 2], [3]] : List (List Nat)).map List.length).sum) :=
  ⟨by decide,
    md5Update_totalSize_sum (fun h _ => h) ⟨[0], List.replicate 64 0, 0, 0⟩ [[1, 2], [3]]
      rfl (by decide) rfl (by decide)⟩

/-- C4: direct-processing branch.  When the buffer is empty and at least
64 bytes remain, the iteration computes n = length - length mod 64 ---
which is the largest multiple of 64 not exceeding the length --- makes
exactly one block-engine invocation covering the first n bytes with the
current state words, adds n to the 64-bit totalSize, and continues on the
remaining bytes. -/
theorem md5Update_direct_branch (c : List Nat → List Nat → List Nat)
    (ctx : Md5Context) (data : List Nat) (n : Nat)
    (h0 : ctx.size = 0) (h64 : 64 ≤ data.length)
    (hn : n = data.length - data.length % 64) :
    updateStep c ctx data =
      { ctx := { h := processBlocks c ctx.h (data.take n), buffer := ctx.buffer,
                 size := 0, totalSize := (ctx.totalSize + n) % W64 },
        calls := [{ h := ctx.h, data := data.take n }],
        rest := data.drop n } ∧
    (data.take n).length = n ∧ n % 64 = 0 ∧ n ≤ data.length ∧
    (∀ m, m % 64 = 0 → m ≤ data.length → m ≤ n) := by
  subst hn
  refine ⟨?_, ?_, ?_, ?_, ?_⟩
  · rw [updateStep_direct c ctx data h0 h64, h0]
  · rw [List.length_take]
    omega
  · omega
  · omega
  · intro m hm hle
    omega

/-- Witness for C4 on a fresh session and a 65-byte input (n = 64). -/
theorem md5Update_direct_branch_witness :
    ((⟨[9], List.replicate 64 0, 0, 0⟩ : Md5Context).size = 0 ∧
      64 ≤ (List.replicate 65 (1 : Nat)).length) ∧
    (updateStep (fun h _ => h) ⟨[9], List.replicate 64 0, 0, 0⟩
        (List.replicate 65 1)).calls =
      [{ h := [9], data := (List.replicate 65 (1 : Nat)).take 64 }] ∧
    (updateStep (fun h _ => h) ⟨[9], List.replicate 64 0, 0, 0⟩
        (List.replicate 65 1)).rest = [1] := by
  refine ⟨⟨rfl, by decide⟩, ?_, ?_⟩
  · rw [(md5Update_direct_branch (fun h _ => h) ⟨[9], List.replicate 64 0, 0, 0⟩
      (List.replicate 65 1) 64 rfl (by decide) (by decide)).1]
  · rw [(md5Update_direct_branch (fun h _ => h) ⟨[9], List.replicate 64 0, 0, 0⟩
      (List.replicate 65 1) 64 rfl (by decide) (by decide)).1]
    decide

/-- C5 counterexample: no post-finalize lockout exists.  On a session in a
state a completed finalize leaves behind (totalSize = 128, empty buffer),
an update with one byte is not rejected: it succeeds and mutates the
session, buffering the byte and advancing totalSize to 129, refuting the
claimed UsageError rejection with unchanged state. -/
theorem md5Update_post_finalize_ce :
    md5Update (fun h _ => h) ⟨[7, 7, 7, 7], List.replicate 64 0, 0, 128⟩ [9] =
      some (⟨[7, 7, 7, 7], (List.replicate 64 0).set 0 9, 1, 129⟩, []) ∧
    (⟨[7, 7, 7, 7], (List.replicate 64 0).set 0 9, 1, 129⟩ : Md5Context) ≠
      ⟨[7, 7, 7, 7], List.replicate 64 0, 0, 128⟩ :=
  ⟨rfl, by decide⟩

/-- C5 (amended): the code contains no post-finalize lockout.  md5Update
performs no finalized-state check and has no error return at all: called
on any session --- in particular one on which finalize has completed ---
it processes the data unconditionally and mutates the session (here a
one-byte update on a session with totalSize = 128 buffers the byte and
advances totalSize to 129, for every block engine), instead of the
specified UsageError rejection with no state mutation. -/
theorem md5Update_no_finalize_lockout :
    ∀ (c : List Nat → List Nat → List Nat),
      md5Update c ⟨[7, 7, 7, 7], List.replicate 64 0, 0, 128⟩ [9] =
        some (⟨[7, 7, 7, 7], (List.replicate 64 0).set 0 9, 1, 129⟩, []) ∧
      (⟨[7, 7, 7, 7], (List.replicate 64 0).set 0 9, 1, 129⟩ : Md5Context) ≠
        ⟨[7, 7, 7, 7], List.replicate 64 0, 0, 128⟩ :=
  fun _ => ⟨rfl, by decide⟩

/-- C10 counterexample: the loop still makes progress when size ≥ 64
reaches the buffering branch with nonzero remaining length.  At size = 64
the iteration consumes no input byte but flushes and resets size to 0, and
the loop then finishes (two iterations of fuel suffice for one byte,
whereas the one-per-byte budget alone does not); at size = 65 the wrapped
size_t subtraction makes n = length, all input is consumed at once and the
loop finishes.  So the loop terminates instead of making no progress. -/
theorem update_progress_without_precondition_ce :
    (updateFuel (fun h _ => h) 2 ⟨[0], List.replicate 64 5, 64, 0⟩ [7]).isSome = true ∧
    (updateFuel (fun h _ => h) 1 ⟨[0], List.replicate 64 5, 64, 0⟩ [7]).isSome = false ∧
    (updateFuel (fun h _ => h) 2 ⟨[0], List.replicate 64 5, 65, 0⟩ [7, 8]).isSome = true := by
  decide

/-- C10 (amended): the while loop of md5Update / sha1Update terminates.
With size < 64 on entry every iteration consumes at least one byte, so the
one-iteration-per-byte budget of the entry points suffices (first two
conjuncts).  Moreover the precondition is not needed for termination: for
every representable size_t value of size, the loop finishes within
length + 1 iterations, because a context with size = 64 flushes and resets
size to 0 while consuming nothing, and one with size > 64 flushes or
consumes all remaining input through the wrapped subtraction 64 - size
(third conjunct). -/
theorem updateLoop_terminates :
    (∀ (c : List Nat → List Nat → List Nat) (ctx : Md5Context) (data : List Nat),
      ctx.size < 64 → ∃ r, md5Update c ctx data = some r) ∧
    (∀ (c : List Nat → List Nat → List Nat) (ctx : Md5Context) (data : List Nat),
      ctx.size < 64 → ∃ r, sha1Update c ctx data = some r) ∧
    (∀ (c : List Nat → List Nat → List Nat) (ctx : Md5Context) (data : List Nat),
      ctx.size < W32 → ∃ r, updateFuel c (data.length + 1) ctx data = some r) := by
  refine ⟨?_, ?_, ?_⟩
  · intro c ctx data hs
    obtain ⟨ctx2, calls, heq, _⟩ := updateFuel_some c data.length ctx data hs (le_refl _)
    exact ⟨(ctx2, calls), heq⟩
  · intro c ctx data hs
    obtain ⟨ctx2, calls, heq, _⟩ := updateFuel_some c data.length ctx data hs (le_refl _)
    exact ⟨(ctx2, calls), heq⟩
  · intro c ctx data hs
    exact updateFuel_terminates_any c ctx data hs

/-- Witness for C10 on a concrete well-formed session. -/
theorem updateLoop_terminates_witness :
    (2 : Nat) < 64 ∧
    (∃ r, md5Update (fun h _ => h) ⟨[0], List.replicate 64 0, 2, 2⟩ [4, 5, 6] = some r) :=
  ⟨by decide,
    updateLoop_terminates.1 (fun h _ => h) ⟨[0], List.replicate 64 0, 2, 2⟩ [4, 5, 6]
      (by decide)⟩

/-- C1 counterexample: feeding 64 one-bytes in a single update call and
feeding the same bytes as two 32-byte calls leave the session in different
full configurations: the state words h, size and totalSize agree (and so
does the live buffer prefix, which here is empty), but the 64-byte buffer
arrays differ --- the single call forwards the block directly and never
touches the buffer, while the chunked calls fill the buffer and flush it,
leaving the flushed block behind as stale content. -/
theorem update_chunk_full_state_ce :
    multiUpdate (fun h _ => h) ⟨[0], List.replicate 64 0, 0, 0⟩
        [List.replicate 32 1, List.replicate 32 1] ≠
      multiUpdate (fun h _ => h) ⟨[0], List.replicate 64 0, 0, 0⟩
        [List.replicate 64 1] ∧
    (multiUpdate (fun h _ => h) ⟨[0], List.replicate 64 0, 0, 0⟩
        [List.replicate 32 1, List.replicate 32 1]).map
          (fun x => (x.h, x.size, x.totalSize, x.buffer.take x.size)) =
      (multiUpdate (fun h _ => h) ⟨[0], List.replicate 64 0, 0, 0⟩
        [List.replicate 64 1]).map
          (fun x => (x.h, x.size, x.totalSize, x.buffer.take x.size)) ∧
    (multiUpdate (fun h _ => h) ⟨[0], List.replicate 64 0, 0, 0⟩
        [List.replicate 32 1, List.replicate 32 1]).map (fun x => x.buffer.take 1) =
      some [1] ∧
    (multiUpdate (fun h _ => h) ⟨[0], List.replicate 64 0, 0, 0⟩
        [List.replicate 64 1]).map (fun x => x.buffer.take 1) = some [0] := by
  decide

/-- C1 (amended): chunk-size independence of the observable session
state.  For every block engine, every well-formed session and every
partition of a byte sequence into consecutive chunks, feeding the chunks
through successive update calls and feeding the whole sequence in one
update call both succeed and agree on the state words h, on size, on
totalSize, and on the live buffer contents (the first size bytes); the
stale tail of the 64-byte buffer array may differ. -/
theorem update_chunk_independence (c : List Nat → List Nat → List Nat)
    (ctx : Md5Context) (chunks : List (List Nat))
    (hs : ctx.size < 64) (hb : ctx.buffer.length = 64) (ht : ctx.totalSize < W64) :
    ∃ ctxMulti rOne, multiUpdate c ctx chunks = some ctxMulti ∧
      md5Update c ctx chunks.flatten = some rOne ∧
      ctxMulti.h = rOne.1.h ∧ ctxMulti.size = rOne.1.size ∧
      ctxMulti.totalSize = rOne.1.totalSize ∧
      ctxMulti.buffer.take ctxMulti.size = rOne.1.buffer.take rOne.1.size := by
  obtain ⟨ctxM, heqM, m1, m2, _, m4⟩ := multiUpdate_refines c chunks ctx hs hb ht
  obtain ⟨ctxO, callsO, heqO, o1, o2, _, o4⟩ :=
    updateFuel_refines c chunks.flatten.length ctx chunks.flatten hs hb ht (le_refl _)
  have habs : absCtx ctxM = absCtx ctxO := by rw [m4, o4]
  have hsizeM : (absCtx ctxM).live.length = ctxM.size := by
    simp only [absCtx, List.length_take]
    omega
  have hsizeO : (absCtx ctxO).live.length = ctxO.size := by
    simp only [absCtx, List.length_take]
    omega
  refine ⟨ctxM, (ctxO, callsO), heqM, heqO, ?_, ?_, ?_, ?_⟩
  · exact congrArg AbsState.h habs
  · rw [← hsizeM, ← hsizeO, habs]
  · exact congrArg AbsState.total habs
  · exact congrArg AbsState.live habs

/-- C8: msp432e4CryptoInit returns ERROR_OUT_OF_RESOURCES exactly when
creating the exclusive-access mutex fails, and NO_ERROR otherwise; in every
run the mutex creation is attempted exactly once (no retry at this layer),
and the peripheral bring-up happens only on the success path. -/
theorem msp432e4CryptoInit_error_iff :
    ∀ createOk : Bool,
      ((msp432e4CryptoInit createOk).1 = ErrorT.outOfResources ↔ createOk = false) ∧
      ((msp432e4CryptoInit createOk).1 = ErrorT.noError ↔ createOk = true) ∧
      (msp432e4CryptoInit createOk).2.count CryptoInitAction.createMutex = 1 ∧
      (CryptoInitAction.enablePeriph ∈ (msp432e4CryptoInit createOk).2 ↔
        createOk = true) := by
  decide

/-- Witness for C1 (amended) on a fresh session and the partition
[[1], [2, 3]] of [1, 2, 3]. -/
theorem update_chunk_independence_witness :
    ((0 : Nat) < 64 ∧ (List.replicate 64 (0 : Nat)).length = 64 ∧ (0 : Nat) < W64) ∧
    (∃ ctxMulti rOne,
      multiUpdate (fun h _ => h) ⟨[0], List.replicate 64 0, 0, 0⟩ [[1], [2, 3]] =
        some ctxMulti ∧
      md5Update (fun h _ => h) ⟨[0], List.replicate 64 0, 0, 0⟩
        ([[1], [2, 3]] : List (List Nat)).flatten = some rOne ∧
      ctxMulti.h = rOne.1.h ∧ ctxMulti.size = rOne.1.size ∧
      ctxMulti.totalSize = rOne.1.totalSize ∧
      ctxMulti.buffer.take ctxMulti.size = rOne.1.buffer.take rOne.1.size) :=
  ⟨⟨by decide, by decide, by decide⟩,
    update_chunk_independence (fun h _ => h) ⟨[0], List.replicate 64 0, 0, 0⟩ [[1], [2, 3]]
      (by decide) (by decide) (by decide)⟩

/-- Positions outside the write range of the seeding loop are left
unchanged. -/
theorem seedFrom_untouched : ∀ (h : List Nat) (ct : Nat → Nat) (j p : Nat),
    (∀ k, k < h.length → p ≠ 6 + (j + k) ∧ p ≠ 14 + (j + k)) →
    seedFrom ct j h p = ct p := by
  intro h
  induction h with
  | nil => intro ct j p _; rfl
  | cons v rest ih =>
    intro ct j p hp
    show seedFrom (wr (wr ct (6 + j) v) (14 + j) v) (j + 1) rest p = ct p
    have h0 := hp 0 (by simp)
    simp only [Nat.add_zero] at h0
    rw [ih _ (j + 1) p ?later]
    · simp only [wr]
      rw [if_neg h0.2, if_neg h0.1]
    case later =>
      intro k hk
      have hk2 := hp (k + 1) (by simp only [List.length_cons]; omega)
      constructor
      · intro he
        exact hk2.1 (by omega)
      · intro he
        exact hk2.2 (by omega)

/-- The seeding loop writes h[k] into both CTSWAP[6+j+k] and
CTSWAP[14+j+k].  The bound j + hLen ≤ 8 (hLen is 4 for MD5 and 5 for
SHA-1) keeps the two banks disjoint. -/
theorem seedFrom_read : ∀ (h : List Nat) (ct : Nat → Nat) (j k : Nat),
    k < h.length → j + h.length ≤ 8 →
    seedFrom ct j h (6 + (j + k)) = h.getD k 0 ∧
    seedFrom ct j h (14 + (j + k)) = h.getD k 0 := by
  intro h
  induction h with
  | nil => intro ct j k hk _; simp at hk
  | cons v rest ih =>
    intro ct j k hk hb
    simp only [List.length_cons] at hk hb
    cases k with
    | zero =>
      constructor
      · show seedFrom (wr (wr ct (6 + j) v) (14 + j) v) (j + 1) rest (6 + (j + 0)) = v
        rw [seedFrom_untouched rest _ (j + 1) _ ?u1]
        · simp only [wr, Nat.add_zero]
          rw [if_neg (by omega : ¬(6 + j = 14 + j))]
          simp
        case u1 =>
          intro m hm
          constructor <;> omega
      · show seedFrom (wr (wr ct (6 + j) v) (14 + j) v) (j + 1) rest (14 + (j + 0)) = v
        rw [seedFrom_untouched rest _ (j + 1) _ ?u2]
        · simp only [wr, Nat.add_zero]
          simp
        case u2 =>
          intro m hm
          constructor <;> omega
    | succ k2 =>
      have hrec := ih (wr (wr ct (6 + j) v) (14 + j) v) (j + 1) k2 (by omega) (by omega)
      have e1 : 6 + (j + (k2 + 1)) = 6 + ((j + 1) + k2) := by omega
      have e2 : 14 + (j + (k2 + 1)) = 14 + ((j + 1) + k2) := by omega
      constructor
      · show seedFrom (wr (wr ct (6 + j) v) (14 + j) v) (j + 1) rest (6 + (j + (k2 + 1))) =
          (v :: rest).getD (k2 + 1) 0
        rw [e1, List.getD_cons_succ]
        exact hrec.1
      · show seedFrom (wr (wr ct (6 + j) v) (14 + j) v) (j + 1) rest (14 + (j + (k2 + 1))) =
          (v :: rest).getD (k2 + 1) 0
        rw [e2, List.getD_cons_succ]
        exact hrec.2

/-- The save loop produces one word per state index. -/
theorem readFrom_length : ∀ (k j : Nat) (ct : Nat → Nat),
    (readFrom ct j k).length = k := by
  intro k
  induction k with
  | zero => intro j ct; rfl
  | succ k2 ih =>
    intro j ct
    show (ct (14 + j) :: readFrom ct (j + 1) k2).length = k2 + 1
    rw [List.length_cons, ih]

/-- Every word the save loop returns is read from the CTSWAP[14+i]
register of the final bank. -/
theorem readFrom_getD : ∀ (k j m : Nat) (ct : Nat → Nat), m < k →
    (readFrom ct j k).getD m 0 = ct (14 + (j + m)) := by
  intro k
  induction k with
  | zero => intro j m ct hm; omega
  | succ k2 ih =>
    intro j m ct hm
    cases m with
    | zero =>
      show (ct (14 + j) :: readFrom ct (j + 1) k2).getD 0 0 = ct (14 + (j + 0))
      rw [List.getD_cons_zero, Nat.add_zero]
    | succ m2 =>
      show (ct (14 + j) :: readFrom ct (j + 1) k2).getD (m2 + 1) 0 = ct (14 + (j + (m2 + 1)))
      rw [List.getD_cons_succ, ih (j + 1) m2 ct (by omega)]
      congr 1
      omega

/-- C7: double state-register seeding.  For every block-engine invocation
(hashProcessData) and every state index i below hLen, the carried-over
word h[i] is written into both register banks --- CTSWAP[6+i] and
CTSWAP[14+i] --- before the block loop runs on the seeded bank, and the
returned state is one word per index, each read back from the
CTSWAP[14+i] register of the post-run bank only. -/
theorem hashProcessData_double_seed
    (step : (Nat → Nat) → List Nat → (Nat → Nat)) (ct0 : Nat → Nat)
    (h data : List Nat) (i : Nat) (hi : i < h.length) (hlen : h.length ≤ 8) :
    seedFrom ct0 0 h (6 + i) = h.getD i 0 ∧
    seedFrom ct0 0 h (14 + i) = h.getD i 0 ∧
    (hashProcessData step ct0 h data).length = h.length ∧
    (hashProcessData step ct0 h data).getD i 0 =
      hashBlocksRun step (seedFrom ct0 0 h) data (14 + i) := by
  have hseed := seedFrom_read h ct0 0 i hi (by omega)
  have e1 : 6 + (0 + i) = 6 + i := by omega
  have e2 : 14 + (0 + i) = 14 + i := by omega
  rw [e1, e2] at hseed
  refine ⟨hseed.1, hseed.2, ?_, ?_⟩
  · exact readFrom_length h.length 0 _
  · have hr := readFrom_getD h.length 0 i
      (hashBlocksRun step (seedFrom ct0 0 h) data) hi
    rw [Nat.zero_add] at hr
    exact hr

/-- Witness for C7 at a concrete 4-word state (the MD5 width). -/
theorem hashProcessData_double_seed_witness :
    ((2 : Nat) < ([10, 20, 30, 40] : List Nat).length ∧
      ([10, 20, 30, 40] : List Nat).length ≤ 8) ∧
    (seedFrom (fun _ => 0) 0 [10, 20, 30, 40] (6 + 2) =
        ([10, 20, 30, 40] : List Nat).getD 2 0 ∧
      seedFrom (fun _ => 0) 0 [10, 20, 30, 40] (14 + 2) =
        ([10, 20, 30, 40] : List Nat).getD 2 0 ∧
      (hashProcessData (fun bank _ => bank) (fun _ => 0) [10, 20, 30, 40] []).length =
        ([10, 20, 30, 40] : List Nat).length ∧
      (hashProcessData (fun bank _ => bank) (fun _ => 0) [10, 20, 30, 40] []).getD 2 0 =
        hashBlocksRun (fun bank _ => bank)
          (seedFrom (fun _ => 0) 0 [10, 20, 30, 40]) [] (14 + 2)) :=
  ⟨⟨by decide, by decide⟩,
    hashProcessData_double_seed (fun bank _ => bank) (fun _ => 0) [10, 20, 30, 40] [] 2
      (by decide) (by decide)⟩

/-- Every operation of the state-restore loop is an engine touch. -/
theorem seedOps_touch : ∀ (h : List Nat) (j : Nat), ∀ op ∈ seedOps j h,
    toEv op = MEv.touch := by
  intro h
  induction h with
  | nil => intro j op hop; simp [seedOps] at hop
  | cons v rest ih =>
    intro j op hop
    simp only [seedOps, List.mem_cons] at hop
    rcases hop with rfl | hop
    · rfl
    rcases hop with rfl | hop
    · rfl
    exact ih (j + 1) op hop

/-- Every operation of one block transfer is an engine touch. -/
theorem blockOneOps_touch : ∀ (blk : List Nat) (op : HwOp), op ∈ blockOneOps blk →
    toEv op = MEv.touch := by
  intro blk op hop
  simp only [blockOneOps, List.mem_cons, List.mem_map] at hop
  rcases hop with rfl | hop
  · rfl
  rcases hop with rfl | hop
  · rfl
  obtain ⟨w, _, rfl⟩ := hop
  rfl

/-- Every operation of the block loop is an engine touch, for any
accumulator of touches. -/
theorem blockFold_ops_touch : ∀ (fuel : Nat) (acc : List HwOp) (data : List Nat),
    (∀ op ∈ acc, toEv op = MEv.touch) →
    ∀ op ∈ blockFold (fun ops blk => ops ++ blockOneOps blk) fuel acc data,
      toEv op = MEv.touch := by
  intro fuel
  induction fuel with
  | zero => intro acc data hacc op hop; exact hacc op hop
  | succ fuel ih =>
    intro acc data hacc op hop
    simp only [blockFold] at hop
    by_cases h64 : 64 ≤ data.length
    · rw [if_pos h64] at hop
      refine ih _ _ ?_ op hop
      intro op2 hop2
      rcases List.mem_append.mp hop2 with h2 | h2
      · exact hacc op2 h2
      · exact blockOneOps_touch _ op2 h2
    · rw [if_neg h64] at hop
      exact hacc op hop

/-- Every operation of the save loop is an engine touch. -/
theorem readOps_touch : ∀ (k j : Nat) (op : HwOp), op ∈ readOps j k →
    toEv op = MEv.touch := by
  intro k
  induction k with
  | zero => intro j op hop; simp [readOps] at hop
  | succ k2 ih =>
    intro j op hop
    simp only [readOps, List.mem_cons] at hop
    rcases hop with rfl | hop
    · rfl
    · exact ih (j + 1) op hop

/-- Shape of the event trace of one hashProcessData invocation: a mutex
acquisition, then engine touches only, then the mutex release. -/
theorem hashOps_events (algo : Nat) (h data : List Nat) :
    ∃ mid, (hashOps algo h data).map toEv = MEv.acq :: (mid ++ [MEv.rel]) ∧
      ∀ e ∈ mid, e = MEv.touch := by
  refine ⟨([HwOp.ctrlSelect algo, HwOp.ctrlInit] ++ seedOps 0 h ++ blockOps data ++
    [HwOp.indataWrite 0, HwOp.stsRead] ++ readOps 0 h.length).map toEv, ?_, ?_⟩
  · simp [hashOps, toEv]
  · intro e he
    simp only [List.mem_map] at he
    obtain ⟨op, hop, rfl⟩ := he
    simp only [List.mem_append, List.mem_cons, List.not_mem_nil, or_false] at hop
    rcases hop with ((((rfl | rfl) | hop) | hop) | (rfl | rfl)) | hop
    · rfl
    · rfl
    · exact seedOps_touch h 0 op hop
    · exact blockFold_ops_touch data.length [] data (by intro x hx; simp at hx) op hop
    · rfl
    · rfl
    · exact readOps_touch h.length 0 op hop

/-- An interleaving whose first component is exhausted is the second
component, tagged. -/
theorem interleave_nil_left : ∀ {xs ys : List MEv} {t : List (Bool × MEv)},
    Interleave xs ys t → xs = [] → t = ys.map (fun e => (false, e)) := by
  intro xs ys t hI
  induction hI with
  | nil => intro _; rfl
  | left _ _ => intro hx; exact absurd hx (by simp)
  | right _ ih =>
    intro hx
    rw [List.map_cons, ih hx]

/-- An interleaving whose second component is exhausted is the first
component, tagged. -/
theorem interleave_nil_right : ∀ {xs ys : List MEv} {t : List (Bool × MEv)},
    Interleave xs ys t → ys = [] → t = xs.map (fun e => (true, e)) := by
  intro xs ys t hI
  induction hI with
  | nil => intro _; rfl
  | left _ ih =>
    intro hy
    rw [List.map_cons, ih hy]
  | right _ _ => intro hy; exact absurd hy (by simp)

/-- While the first context holds the mutex and has only touches followed
by its release left, the mutex semantics forces all its remaining events
to happen before anything of a context whose next event is an acquire. -/
theorem drain_left : ∀ (mid : List MEv) (ys : List MEv) (t : List (Bool × MEv)),
    (∀ e ∈ mid, e = MEv.touch) →
    Interleave (mid ++ [MEv.rel]) (MEv.acq :: ys) t →
    mutexSteps (some true) t = true →
    ∃ t2, t = (mid ++ [MEv.rel]).map (fun e => (true, e)) ++ t2 ∧
      Interleave [] (MEv.acq :: ys) t2 ∧ mutexSteps none t2 = true := by
  intro mid
  induction mid with
  | nil =>
    intro ys t hm hI hM
    cases hI with
    | left hI2 =>
      refine ⟨_, rfl, hI2, ?_⟩
      simpa [mutexSteps] using hM
    | right hI2 => simp [mutexSteps] at hM
  | cons m mid ih =>
    intro ys t hm hI hM
    have hmt : m = MEv.touch := hm m (by simp)
    subst hmt
    cases hI with
    | left hI2 =>
      have hM2 := (by simpa [mutexSteps] using hM :
        mutexSteps (some true) _ = true)
      obtain ⟨t2, ht, hI3, hM3⟩ := ih ys _ (fun e he => hm e (by simp [he])) hI2 hM2
      refine ⟨t2, ?_, hI3, hM3⟩
      rw [ht]
      simp
    | right hI2 => simp [mutexSteps] at hM

/-- Mirror image of the draining lemma for the second context. -/
theorem drain_right : ∀ (mid : List MEv) (xs : List MEv) (t : List (Bool × MEv)),
    (∀ e ∈ mid, e = MEv.touch) →
    Interleave (MEv.acq :: xs) (mid ++ [MEv.rel]) t →
    mutexSteps (some false) t = true →
    ∃ t2, t = (mid ++ [MEv.rel]).map (fun e => (false, e)) ++ t2 ∧
      Interleave (MEv.acq :: xs) [] t2 ∧ mutexSteps none t2 = true := by
  intro mid
  induction mid with
  | nil =>
    intro xs t hm hI hM
    cases hI with
    | left hI2 => simp [mutexSteps] at hM
    | right hI2 =>
      refine ⟨_, rfl, hI2, ?_⟩
      simpa [mutexSteps] using hM
  | cons m mid ih =>
    intro xs t hm hI hM
    have hmt : m = MEv.touch := hm m (by simp)
    subst hmt
    cases hI with
    | left hI2 => simp [mutexSteps] at hM
    | right hI2 =>
      have hM2 := (by simpa [mutexSteps] using hM :
        mutexSteps (some false) _ = true)
      obtain ⟨t2, ht, hI3, hM3⟩ := ih xs _ (fun e he => hm e (by simp [he])) hI2 hM2
      refine ⟨t2, ?_, hI3, hM3⟩
      rw [ht]
      simp

/-- Two single-bracket critical sections can only interleave sequentially
under the mutex semantics: whichever context acquires first runs its whole
bracket to the release before the other context's acquire can proceed. -/
theorem bracket_serial (m1 m2 : List MEv) (t : List (Bool × MEv))
    (h1 : ∀ e ∈ m1, e = MEv.touch) (h2 : ∀ e ∈ m2, e = MEv.touch)
    (hI : Interleave (MEv.acq :: (m1 ++ [MEv.rel])) (MEv.acq :: (m2 ++ [MEv.rel])) t)
    (hM : mutexSteps none t = true) :
    t = (MEv.acq :: (m1 ++ [MEv.rel])).map (fun e => (true, e)) ++
        (MEv.acq :: (m2 ++ [MEv.rel])).map (fun e => (false, e)) ∨
    t = (MEv.acq :: (m2 ++ [MEv.rel])).map (fun e => (false, e)) ++
        (MEv.acq :: (m1 ++ [MEv.rel])).map (fun e => (true, e)) := by
  cases hI with
  | left hI2 =>
    left
    have hM2 := (by simpa [mutexSteps] using hM : mutexSteps (some true) _ = true)
    obtain ⟨t2, ht, hI3, hM3⟩ := drain_left m1 (m2 ++ [MEv.rel]) _ h1 hI2 hM2
    have ht2 := interleave_nil_left hI3 rfl
    rw [ht, ht2]
    simp
  | right hI2 =>
    right
    have hM2 := (by simpa [mutexSteps] using hM : mutexSteps (some false) _ = true)
    obtain ⟨t2, ht, hI3, hM3⟩ := drain_right m2 (m1 ++ [MEv.rel]) _ h2 hI2 hM2
    have ht2 := interleave_nil_right hI3 rfl
    rw [ht, ht2]
    simp

/-- Tagging a whole sequence as the second context is an interleaving. -/
theorem interleave_right_all : ∀ (ys : List MEv),
    Interleave [] ys (ys.map (fun e => (false, e))) := by
  intro ys
  induction ys with
  | nil => exact Interleave.nil
  | cons y ys ih => exact Interleave.right ih

/-- Running the first context to completion and then the second is an
interleaving. -/
theorem interleave_serial : ∀ (xs ys : List MEv),
    Interleave xs ys (xs.map (fun e => (true, e)) ++ ys.map (fun e => (false, e))) := by
  intro xs
  induction xs with
  | nil =>
    intro ys
    simpa using interleave_right_all ys
  | cons x xs ih =>
    intro ys
    simpa using Interleave.left (ih ys)

/-- C6: engine exclusivity.  First conjunct: every hashProcessData
invocation acquires the process-wide mutex before touching the engine and
releases it before returning (its event trace is an acquire, then engine
touches only, then the release).  Second conjunct: under the mutex
semantics, any interleaving of two invocation traces is one of the two
sequential orders, so no two block runs are interleaved on the shared
engine. -/
theorem hashProcessData_exclusive :
    (∀ (algo : Nat) (h data : List Nat), ∃ mid,
      (hashOps algo h data).map toEv = MEv.acq :: (mid ++ [MEv.rel]) ∧
      ∀ e ∈ mid, e = MEv.touch) ∧
    (∀ (algo1 algo2 : Nat) (h1 d1 h2 d2 : List Nat) (t : List (Bool × MEv)),
      Interleave ((hashOps algo1 h1 d1).map toEv) ((hashOps algo2 h2 d2).map toEv) t →
      mutexSteps none t = true →
      t = ((hashOps algo1 h1 d1).map toEv).map (fun e => (true, e)) ++
          ((hashOps algo2 h2 d2).map toEv).map (fun e => (false, e)) ∨
      t = ((hashOps algo2 h2 d2).map toEv).map (fun e => (false, e)) ++
          ((hashOps algo1 h1 d1).map toEv).map (fun e => (true, e))) := by
  refine ⟨hashOps_events, ?_⟩
  intro algo1 algo2 h1 d1 h2 d2 t hI hM
  obtain ⟨mid1, he1, hm1⟩ := hashOps_events algo1 h1 d1
  obtain ⟨mid2, he2, hm2⟩ := hashOps_events algo2 h2 d2
  rw [he1, he2] at hI ⊢
  exact bracket_serial mid1 mid2 t hm1 hm2 hI hM

/-- Witness for C6: two concrete invocation traces, interleaved
sequentially, satisfy the mutex semantics and the theorem concludes the
trace is one of the two serial orders. -/
theorem hashProcessData_exclusive_witness :
    Interleave ((hashOps 0 [1] []).map toEv) ((hashOps 1 [2] []).map toEv)
      (((hashOps 0 [1] []).map toEv).map (fun e => (true, e)) ++
        ((hashOps 1 [2] []).map toEv).map (fun e => (false, e))) ∧
    mutexSteps none
      (((hashOps 0 [1] []).map toEv).map (fun e => (true, e)) ++
        ((hashOps 1 [2] []).map toEv).map (fun e => (false, e))) = true ∧
    ((((hashOps 0 [1] []).map toEv).map (fun e => (true, e)) ++
        ((hashOps 1 [2] []).map toEv).map (fun e => (false, e))) =
      ((hashOps 0 [1] []).map toEv).map (fun e => (true, e)) ++
        ((hashOps 1 [2] []).map toEv).map (fun e => (false, e)) ∨
      (((hashOps 0 [1] []).map toEv).map (fun e => (true, e)) ++
        ((hashOps 1 [2] []).map toEv).map (fun e => (false, e))) =
      ((hashOps 1 [2] []).map toEv).map (fun e => (false, e)) ++
        ((hashOps 0 [1] []).map toEv).map (fun e => (true, e))) :=
  ⟨interleave_serial _ _, by decide,
    hashProcessData_exclusive.2 0 1 [1] [] [2] [] _ (interleave_serial _ _) (by decide)⟩

end CpmEncryptBox
